import Mathlib

/-!
# TradePulse trade-execution and portfolio-valuation core: a shallow embedding

This file embeds the trade-execution core of the TradePulse paper-trading
platform (`backend/app/trading/services.py`, the competition variant
`backend/app/social/competition_trading_service.py`, and the valuation /
metrics code `backend/app/portfolio/services.py`) into Lean and proves the
specified properties about it.

Conventions of the embedding:
* Python `Decimal` amounts are modelled as `ℚ` (exact decimal arithmetic).
  The competition service computes its order economics in Python binary
  floats, which have no shallow embedding; only its exact `Decimal`-level
  commit step is embedded, taking the float-computed amounts as inputs.
* Python `int` quantities are modelled as `ℤ`.
* The database rows touched by one portfolio are modelled explicitly:
  the portfolio's cash balance, the list of `Position` rows, and the
  append-only list of `Trade` rows.
* The price oracle (`StockService.get_stock_info`) is passed in as an
  `Option StockInfo` argument: `none` is an oracle miss.
* Free-text failure messages are replaced by a structured failure kind;
  each kind corresponds to exactly one `return TradeResponse(success=False, ...)`
  site of the source.
-/

namespace TradePulse

/-- Python's `str.upper()` as used on ticker symbols: uppercase every
character. -/
def upper (s : String) : String := ⟨s.data.map Char.toUpper⟩

/-- `OrderType` from `trading/schemas.py`. -/
inductive OrderType where
  | buy
  | sell
deriving DecidableEq, Repr

/-- The quote returned by the price oracle (`StockService.get_stock_info`):
the fields of it that `execute_trade` reads. -/
structure StockInfo where
  current_price : ℚ
  name : String
deriving DecidableEq, Repr

/-- `TradeRequest` from `trading/schemas.py` (symbol, quantity, order type).
The pydantic validator rejects `quantity ≤ 0`; theorems that need
positivity take it as a hypothesis. -/
structure TradeRequest where
  symbol : String
  quantity : ℤ
  order_type : OrderType
deriving DecidableEq, Repr

/-- The distinct failure exits of `execute_trade` (each is one
`success=False` return site of the source). -/
inductive TradeFailure where
  | oracleUnavailable
  | insufficientFunds
  | insufficientShares
deriving DecidableEq, Repr

/-- `TradeResponse` from `trading/schemas.py`, with the free-text message
replaced by the structured failure kind. -/
structure TradeResponse where
  success : Bool
  error : Option TradeFailure
  executed_price : Option ℚ
  executed_quantity : Option ℤ
  total_cost : Option ℚ
  total_proceeds : Option ℚ
  fees : Option ℚ
deriving DecidableEq, Repr

/-- A `Position` row (`database.py`): the columns the trading core touches. -/
structure Position where
  symbol : String
  quantity : ℤ
  average_cost : ℚ
deriving DecidableEq, Repr

/-- A `Trade` ledger row (`database.py`): the columns the trading core writes. -/
structure Trade where
  symbol : String
  trade_type : String
  quantity : ℤ
  price : ℚ
  total_amount : ℚ
  fees : ℚ
deriving DecidableEq, Repr

/-- The database state owned by one portfolio: its cash balance, its
`Position` rows and its `Trade` ledger rows. -/
structure TradingState where
  cash_balance : ℚ
  positions : List Position
  trades : List Trade
deriving DecidableEq, Repr

/-- The 0.05% brokerage rate, `Decimal('0.0005')` in the source. -/
def brokerageRate : ℚ := 5 / 10000

namespace TradingService

/-- The `Position` row selected by
`select(Position).where(portfolio_id = ..., symbol = symbol)`:
the row of the portfolio whose symbol matches. -/
def findPosition (positions : List Position) (symbol : String) : Option Position :=
  positions.find? (fun p => p.symbol == symbol)

/-- The buy-side upsert of `_execute_buy_order`: update the matching
`Position` row (quantity-weighted average cost) if one exists, otherwise
insert a fresh row with `average_cost = price`. -/
def applyBuy (positions : List Position) (symbol : String) (quantity : ℤ)
    (price trade_value : ℚ) : List Position :=
  match positions with
  | [] => [⟨symbol, quantity, price⟩]
  | p :: rest =>
    if p.symbol == symbol then
      { p with
        average_cost :=
          (p.average_cost * (p.quantity : ℚ) + trade_value) / ((p.quantity + quantity : ℤ) : ℚ),
        quantity := p.quantity + quantity } :: rest
    else
      p :: applyBuy rest symbol quantity price trade_value

/-- The sell-side update of `_execute_sell_order`: decrement the matching
row's quantity, deleting the row when the quantity reaches 0. -/
def applySell (positions : List Position) (symbol : String) (quantity : ℤ) :
    List Position :=
  match positions with
  | [] => []
  | p :: rest =>
    if p.symbol == symbol then
      if p.quantity - quantity = 0 then rest
      else { p with quantity := p.quantity - quantity } :: rest
    else
      p :: applySell rest symbol quantity

/-- `TradingService._execute_buy_order` (`trading/services.py`). -/
def execute_buy_order (st : TradingState) (symbol : String) (quantity : ℤ)
    (price trade_value fees : ℚ) : TradeResponse × TradingState :=
  let total_cost := trade_value + fees
  if st.cash_balance < total_cost then
    (⟨false, some .insufficientFunds, none, none, none, none, none⟩, st)
  else
    let st' : TradingState :=
      { cash_balance := st.cash_balance - total_cost
        positions := applyBuy st.positions symbol quantity price trade_value
        trades := st.trades ++ [⟨symbol, "buy", quantity, price, trade_value, fees⟩] }
    (⟨true, none, some price, some quantity, some total_cost, none, some fees⟩, st')

/-- `TradingService._execute_sell_order` (`trading/services.py`). -/
def execute_sell_order (st : TradingState) (symbol : String) (quantity : ℤ)
    (price trade_value fees : ℚ) : TradeResponse × TradingState :=
  match findPosition st.positions symbol with
  | none =>
    (⟨false, some .insufficientShares, none, none, none, none, none⟩, st)
  | some position =>
    if position.quantity < quantity then
      (⟨false, some .insufficientShares, none, none, none, none, none⟩, st)
    else
      let net_proceeds := trade_value - fees
      let st' : TradingState :=
        { cash_balance := st.cash_balance + net_proceeds
          positions := applySell st.positions symbol quantity
          trades := st.trades ++ [⟨symbol, "sell", quantity, price, trade_value, fees⟩] }
      (⟨true, none, some price, some quantity, none, some net_proceeds, some fees⟩, st')

/-- `TradingService.execute_trade` (`trading/services.py`): fetch the quote,
uppercase the symbol, compute gross value and the 0.05% brokerage fee, and
dispatch to the buy or sell path. -/
def execute_trade (st : TradingState) (trade_request : TradeRequest)
    (quote : Option StockInfo) : TradeResponse × TradingState :=
  match quote with
  | none =>
    (⟨false, some .oracleUnavailable, none, none, none, none, none⟩, st)
  | some stock_info =>
    let current_price := stock_info.current_price
    let symbol := upper trade_request.symbol
    let quantity := trade_request.quantity
    let trade_value := current_price * (quantity : ℚ)
    let fees := trade_value * brokerageRate
    match trade_request.order_type with
    | .buy => execute_buy_order st symbol quantity current_price trade_value fees
    | .sell => execute_sell_order st symbol quantity current_price trade_value fees

end TradingService

/-! ## Competition variant (`social/competition_trading_service.py`)

The competition engine keeps no `Position` rows: a participant's holdings
are derived from the `CompetitionTrade` ledger. Unlike the personal
engine, `execute_competition_trade` computes `current_price`,
`trade_value`, `brokerage`, `total_cost` and `net_proceeds` in Python
binary floats (`current_price = float(...)` and onward) and only converts
the results with `Decimal(str(...))` at the commit. Binary floating point
has no shallow embedding here, so only the exact `Decimal`-level commit
step (`participant.current_balance = ... - Decimal(str(total_cost))`, the
`CompetitionTrade(...)` row construction and `db.add`) is embedded; the
float-computed amounts enter it as parameters. -/

/-- A `CompetitionTrade` ledger row (`database.py`): the columns
`execute_competition_trade` writes. There is no fee column; only the gross
`total_amount` is persisted. -/
structure CompetitionTrade where
  symbol : String
  trade_type : String
  quantity : ℤ
  price : ℚ
  total_amount : ℚ
deriving DecidableEq, Repr

/-- The state owned by one `CompetitionParticipant`: its cash balance and
its competition trade ledger. -/
structure ParticipantState where
  current_balance : ℚ
  trades : List CompetitionTrade
deriving DecidableEq, Repr

namespace CompetitionTradingService

/-- The buy-side commit of `execute_competition_trade`
(`competition_trading_service.py` lines 60–74, 105–107): debit
`Decimal(str(total_cost))` and append the ledger row with
`price = Decimal(str(current_price))` and
`total_amount = Decimal(str(trade_value))`. The parameters
`price_dec`, `trade_value_dec` and `total_cost_dec` are those three
`Decimal` values; upstream the source computes them in binary float
(`trade_value = current_price * quantity`,
`total_cost = trade_value + trade_value * 0.0005`), so no arithmetic
relation between them is assumed here. -/
def competition_buy_commit (st : ParticipantState) (symbol : String)
    (quantity : ℤ) (price_dec trade_value_dec total_cost_dec : ℚ) :
    ParticipantState :=
  { current_balance := st.current_balance - total_cost_dec
    trades := st.trades ++ [⟨symbol, "BUY", quantity, price_dec, trade_value_dec⟩] }

end CompetitionTradingService

/-! ## Valuation engine (`portfolio/services.py`) -/

/-- `PositionValue` from `portfolio/schemas.py`. -/
structure PositionValue where
  symbol : String
  quantity : ℤ
  average_cost : ℚ
  current_price : ℚ
  market_value : ℚ
  cost_basis : ℚ
  unrealized_pnl : ℚ
  unrealized_pnl_percent : ℚ
deriving DecidableEq, Repr

/-- `PortfolioValue` from `portfolio/schemas.py`: the fields
`calculate_portfolio_value` computes. -/
structure PortfolioValue where
  cash_balance : ℚ
  stock_value : ℚ
  total_value : ℚ
  positions : List PositionValue
deriving DecidableEq, Repr

namespace PortfolioService

/-- The per-position body of the loop in
`PortfolioService.calculate_portfolio_value`, for a position whose symbol
has the oracle price `price`. -/
def position_value_of (p : Position) (price : ℚ) : PositionValue :=
  let position_value := price * (p.quantity : ℚ)
  let cost_basis := p.average_cost * (p.quantity : ℚ)
  let pnl := position_value - cost_basis
  { symbol := p.symbol
    quantity := p.quantity
    average_cost := p.average_cost
    current_price := price
    market_value := position_value
    cost_basis := cost_basis
    unrealized_pnl := pnl
    unrealized_pnl_percent := if 0 < cost_basis then pnl / cost_basis * 100 else 0 }

/-- `PortfolioService.calculate_portfolio_value`: value the positions with
`quantity > 0` whose symbol has an oracle price, skipping the others, and
sum cash plus the included market values. -/
def calculate_portfolio_value (cash_balance : ℚ) (positions : List Position)
    (prices : String → Option ℚ) : PortfolioValue :=
  let held := positions.filter (fun p => decide (0 < p.quantity))
  let position_values :=
    held.filterMap (fun p => (prices p.symbol).map (position_value_of p))
  let total_stock_value := (position_values.map (fun v => v.market_value)).sum
  { cash_balance := cash_balance
    stock_value := total_stock_value
    total_value := cash_balance + total_stock_value
    positions := position_values }

/-! ### Win-rate portion of `calculate_real_portfolio_metrics` -/

/-- `avg_buy_price` inside `calculate_real_portfolio_metrics`: the
unweighted mean of the buy trades' prices. -/
def avg_buy_price (buy_trades : List Trade) : ℚ :=
  (buy_trades.map (fun t => t.price)).sum / (buy_trades.length : ℚ)

/-- The contribution of one symbol group to `profitable_trades` in
`calculate_real_portfolio_metrics`: if the symbol has both buys and sells,
the number of its sell trades whose price exceeds the unweighted mean of
all its buy trades' prices, else 0. -/
def profitable_for_symbol (all_trades : List Trade) (symbol : String) : ℕ :=
  let trades := all_trades.filter (fun t => t.symbol == symbol)
  let buy_trades := trades.filter (fun t => t.trade_type == "buy")
  let sell_trades := trades.filter (fun t => t.trade_type == "sell")
  if buy_trades.isEmpty || sell_trades.isEmpty then 0
  else sell_trades.countP (fun t => decide (avg_buy_price buy_trades < t.price))

/-- The distinct symbols appearing in the trade list (the keys of the
`symbol_trades` dict in `calculate_real_portfolio_metrics`; the dict
iteration order does not affect the total, which sums independent
per-symbol contributions). -/
def trade_symbols (all_trades : List Trade) : List String :=
  (all_trades.map (fun t => t.symbol)).dedup

/-- `profitable_trades` accumulated over the symbol groups in
`calculate_real_portfolio_metrics`. -/
def profitable_trades (all_trades : List Trade) : ℕ :=
  (trade_symbols all_trades).foldl
    (fun acc symbol => acc + profitable_for_symbol all_trades symbol) 0

/-- `win_rate` as computed by `calculate_real_portfolio_metrics`:
`profitable_trades / total_trades * 100` where `total_trades` counts ALL
trades (buys and sells), and 0.0 for an empty trade list. -/
def win_rate (all_trades : List Trade) : ℚ :=
  if all_trades.isEmpty then 0
  else (profitable_trades all_trades : ℚ) / (all_trades.length : ℚ) * 100

end PortfolioService

/-! ## Spec-side win rate, for comparison with the implementation

These definitions follow the specification's words (§4.2: "win rate
(fraction of round-trip sells executed above the symbol's running average
buy price)"), not the source; they exist only to be compared with
`PortfolioService.win_rate`. -/

namespace SpecWinRate

/-- The buy trades of a symbol within a trade list. -/
def buys_of (trades : List Trade) (symbol : String) : List Trade :=
  trades.filter (fun t => t.symbol == symbol && t.trade_type == "buy")

/-- Spec §4.2: count the sell trades executed above the symbol's running
average buy price, i.e. above the mean price of the buys that precede the
sell in the record. `prev` accumulates the already-processed prefix. -/
def profitable_sells (prev : List Trade) : List Trade → ℕ
  | [] => 0
  | t :: rest =>
    (if t.trade_type == "sell" && !(buys_of prev t.symbol).isEmpty &&
        decide (PortfolioService.avg_buy_price (buys_of prev t.symbol) < t.price)
      then 1 else 0) + profitable_sells (prev ++ [t]) rest

/-- Spec §4.2 win rate: profitable round-trip sells as a percentage of the
sell trades. -/
def win_rate_spec (trades : List Trade) : ℚ :=
  let sells := trades.filter (fun t => t.trade_type == "sell")
  if sells.isEmpty then 0
  else (profitable_sells [] trades : ℚ) / (sells.length : ℚ) * 100

end SpecWinRate

/-- The buy trades of a symbol, as grouped by
`calculate_real_portfolio_metrics` (group by symbol, then filter buys). -/
def buy_trades_of (all_trades : List Trade) (symbol : String) : List Trade :=
  (all_trades.filter (fun t => t.symbol == symbol)).filter
    (fun t => t.trade_type == "buy")

/-- The predicate under which `calculate_real_portfolio_metrics` counts a
trade as profitable, characterised directly: a sell whose symbol has at
least one buy anywhere in the record and whose price exceeds the
unweighted mean of all of that symbol's buy prices. -/
def profit_pred (all_trades : List Trade) (t : Trade) : Bool :=
  t.trade_type == "sell" &&
    (!(buy_trades_of all_trades t.symbol).isEmpty &&
      decide (PortfolioService.avg_buy_price (buy_trades_of all_trades t.symbol) <
        t.price))

/-- The number of trades `calculate_real_portfolio_metrics` counts as
profitable, characterised directly over the whole record. -/
def profitable_direct (all_trades : List Trade) : ℕ :=
  all_trades.countP (profit_pred all_trades)

/-! ## Ledger reconciliation (claim C6) -/

/-- Replay a sequence of orders through `TradingService.execute_trade`,
each with its oracle outcome. -/
def run_trades (st : TradingState) :
    List (TradeRequest × Option StockInfo) → TradingState
  | [] => st
  | (req, quote) :: rest =>
    run_trades (TradingService.execute_trade st req quote).2 rest

/-- Reconstruct a cash balance from the personal trade ledger: starting
balance, minus `gross + fee` for each buy record, plus `gross − fee` for
each sell record (both persisted on the `Trade` row). -/
def reconcile (starting_balance : ℚ) (trades : List Trade) : ℚ :=
  trades.foldl
    (fun cash t =>
      if t.trade_type == "buy" then cash - (t.total_amount + t.fees)
      else cash + (t.total_amount - t.fees))
    starting_balance

/-- Reconstruct a participant's cash balance from the competition ledger.
A `CompetitionTrade` row persists only the gross `total_amount`; the fee is
recovered from it by the fixed 0.05% brokerage rule, as the claim
prescribes. -/
def reconcile_competition (starting_balance : ℚ) (trades : List CompetitionTrade) : ℚ :=
  trades.foldl
    (fun cash t =>
      if t.trade_type == "BUY" then
        cash - (t.total_amount + t.total_amount * brokerageRate)
      else cash + (t.total_amount - t.total_amount * brokerageRate))
    starting_balance

/-! ## Unguarded concurrent execution (claim C9)

`execute_trade` loads the portfolio row, validates against the loaded
balance, and only later commits; `_execute_buy_order` awaits the position
query between the cash check and `db.commit()`, so under asyncio a second
request can load the same pre-commit balance. There is no row lock or
per-account mutex. The model below runs both requests against the same
snapshot state and lets the commits apply in request order, the later
flushed balance overwriting the earlier (each session writes the absolute
balance it computed from its own stale snapshot). -/

def interleaved_same_snapshot (st : TradingState) (req1 req2 : TradeRequest)
    (quote : Option StockInfo) : TradeResponse × TradeResponse × ℚ :=
  let r1 := TradingService.execute_trade st req1 quote
  let r2 := TradingService.execute_trade st req2 quote
  (r1.1, r2.1, (if r2.1.success then r2.2 else r1.2).cash_balance)

namespace TradingService

/-! ### Evaluation lemmas for the trade executor -/

theorem execute_trade_buy (st : TradingState) (req : TradeRequest) (info : StockInfo)
    (hord : req.order_type = .buy) :
    execute_trade st req (some info) =
      execute_buy_order st (upper req.symbol) req.quantity info.current_price
        (info.current_price * (req.quantity : ℚ))
        (info.current_price * (req.quantity : ℚ) * brokerageRate) := by
  simp only [execute_trade, hord]

theorem execute_trade_sell (st : TradingState) (req : TradeRequest) (info : StockInfo)
    (hord : req.order_type = .sell) :
    execute_trade st req (some info) =
      execute_sell_order st (upper req.symbol) req.quantity info.current_price
        (info.current_price * (req.quantity : ℚ))
        (info.current_price * (req.quantity : ℚ) * brokerageRate) := by
  simp only [execute_trade, hord]

theorem execute_buy_order_of_lt (st : TradingState) (symbol : String) (quantity : ℤ)
    (price trade_value fees : ℚ) (h : st.cash_balance < trade_value + fees) :
    execute_buy_order st symbol quantity price trade_value fees =
      (⟨false, some .insufficientFunds, none, none, none, none, none⟩, st) := by
  simp only [execute_buy_order, if_pos h]

theorem execute_buy_order_of_le (st : TradingState) (symbol : String) (quantity : ℤ)
    (price trade_value fees : ℚ) (h : ¬ st.cash_balance < trade_value + fees) :
    execute_buy_order st symbol quantity price trade_value fees =
      (⟨true, none, some price, some quantity, some (trade_value + fees), none, some fees⟩,
        { cash_balance := st.cash_balance - (trade_value + fees)
          positions := applyBuy st.positions symbol quantity price trade_value
          trades := st.trades ++ [⟨symbol, "buy", quantity, price, trade_value, fees⟩] }) := by
  simp only [execute_buy_order, if_neg h]

theorem execute_sell_order_of_none (st : TradingState) (symbol : String) (quantity : ℤ)
    (price trade_value fees : ℚ) (h : findPosition st.positions symbol = none) :
    execute_sell_order st symbol quantity price trade_value fees =
      (⟨false, some .insufficientShares, none, none, none, none, none⟩, st) := by
  simp only [execute_sell_order, h]

theorem execute_sell_order_of_short (st : TradingState) (symbol : String) (quantity : ℤ)
    (price trade_value fees : ℚ) (position : Position)
    (h : findPosition st.positions symbol = some position)
    (hq : position.quantity < quantity) :
    execute_sell_order st symbol quantity price trade_value fees =
      (⟨false, some .insufficientShares, none, none, none, none, none⟩, st) := by
  simp only [execute_sell_order, h, if_pos hq]

theorem execute_sell_order_of_covered (st : TradingState) (symbol : String) (quantity : ℤ)
    (price trade_value fees : ℚ) (position : Position)
    (h : findPosition st.positions symbol = some position)
    (hq : ¬ position.quantity < quantity) :
    execute_sell_order st symbol quantity price trade_value fees =
      (⟨true, none, some price, some quantity, none, some (trade_value - fees), some fees⟩,
        { cash_balance := st.cash_balance + (trade_value - fees)
          positions := applySell st.positions symbol quantity
          trades := st.trades ++ [⟨symbol, "sell", quantity, price, trade_value, fees⟩] }) := by
  simp only [execute_sell_order, h, if_neg hq]

end TradingService

/-- C1: for every successfully executed order at oracle price `p` with
quantity `q`, the fee equals `p×q×0.0005` on both sides; a committed buy
decreases the cash balance by exactly `p×q` plus the fee, and a committed
sell increases it by exactly `p×q` minus the fee, in exact arithmetic. -/
theorem C1_fee_and_conservation (st : TradingState) (req : TradeRequest)
    (info : StockInfo)
    (hsucc : (TradingService.execute_trade st req (some info)).1.success = true) :
    (TradingService.execute_trade st req (some info)).1.fees =
      some (info.current_price * (req.quantity : ℚ) * (5 / 10000)) ∧
    (req.order_type = .buy →
      (TradingService.execute_trade st req (some info)).2.cash_balance =
        st.cash_balance - (info.current_price * (req.quantity : ℚ) +
          info.current_price * (req.quantity : ℚ) * (5 / 10000))) ∧
    (req.order_type = .sell →
      (TradingService.execute_trade st req (some info)).2.cash_balance =
        st.cash_balance + (info.current_price * (req.quantity : ℚ) -
          info.current_price * (req.quantity : ℚ) * (5 / 10000))) := by
  cases hord : req.order_type with
  | buy =>
    rw [TradingService.execute_trade_buy st req info hord] at hsucc ⊢
    by_cases hc : st.cash_balance <
        info.current_price * (req.quantity : ℚ) +
          info.current_price * (req.quantity : ℚ) * brokerageRate
    · rw [TradingService.execute_buy_order_of_lt _ _ _ _ _ _ hc] at hsucc
      simp at hsucc
    · rw [TradingService.execute_buy_order_of_le _ _ _ _ _ _ hc]
      exact ⟨rfl, fun _ => rfl, fun hs => absurd hs (by decide)⟩
  | sell =>
    rw [TradingService.execute_trade_sell st req info hord] at hsucc ⊢
    cases hfind : TradingService.findPosition st.positions (upper req.symbol) with
    | none =>
      rw [TradingService.execute_sell_order_of_none _ _ _ _ _ _ hfind] at hsucc
      simp at hsucc
    | some position =>
      by_cases hq : position.quantity < req.quantity
      · rw [TradingService.execute_sell_order_of_short _ _ _ _ _ _ _ hfind hq] at hsucc
        simp at hsucc
      · rw [TradingService.execute_sell_order_of_covered _ _ _ _ _ _ _ hfind hq]
        exact ⟨rfl, fun hb => absurd hb (by decide), fun _ => rfl⟩

/-- C1 witness: a concrete buy (10 shares at 150 from cash 100000) and a
concrete sell (10 shares at 160 holding 10) instantiating the theorem. -/
theorem C1_fee_and_conservation_witness :
    (TradingService.execute_trade ⟨100000, [], []⟩ ⟨"AAPL", 10, .buy⟩
        (some ⟨150, "Apple"⟩)).2.cash_balance =
      100000 - ((150 : ℚ) * 10 + 150 * 10 * (5 / 10000)) ∧
    (TradingService.execute_trade ⟨9849925/100, [⟨"AAPL", 10, 150⟩], []⟩
        ⟨"AAPL", 10, .sell⟩ (some ⟨160, "Apple"⟩)).2.cash_balance =
      9849925/100 + ((160 : ℚ) * 10 - 160 * 10 * (5 / 10000)) := by
  have hup : upper "AAPL" = "AAPL" := by decide
  have hb := C1_fee_and_conservation ⟨100000, [], []⟩ ⟨"AAPL", 10, .buy⟩
    ⟨150, "Apple"⟩ (by
      norm_num [TradingService.execute_trade, TradingService.execute_buy_order,
        brokerageRate])
  have hs := C1_fee_and_conservation ⟨9849925/100, [⟨"AAPL", 10, 150⟩], []⟩
    ⟨"AAPL", 10, .sell⟩ ⟨160, "Apple"⟩ (by
      norm_num [TradingService.execute_trade, TradingService.execute_sell_order,
        TradingService.findPosition, hup, brokerageRate])
  exact ⟨by simpa using hb.2.1 rfl, by simpa using hs.2.2 rfl⟩

/-- A successful `find?` splits the list at the first matching element. -/
theorem find?_eq_some_decomp {α : Type} (p : α → Bool) {l : List α} {a : α}
    (h : l.find? p = some a) :
    ∃ l1 l2, l = l1 ++ a :: l2 ∧ (∀ x ∈ l1, p x = false) ∧ p a = true := by
  induction l with
  | nil => simp at h
  | cons x xs ih =>
    by_cases hx : p x
    · rw [List.find?_cons_of_pos _ hx] at h
      obtain rfl : x = a := by simpa using h
      exact ⟨[], xs, rfl, by simp, by simpa using hx⟩
    · rw [List.find?_cons_of_neg _ hx] at h
      obtain ⟨l1, l2, hsplit, hl1, hp⟩ := ih h
      exact ⟨x :: l1, l2, by simp [hsplit], by
        intro y hy
        rcases List.mem_cons.mp hy with hy | hy
        · simpa [hy] using hx
        · exact hl1 y hy, hp⟩

namespace TradingService

/-- `applySell` on a list split at the first row matching the symbol:
the rows before and after the match are untouched; the matching row is
decremented, or deleted when the decrement reaches zero. -/
theorem applySell_decomp (l1 l2 : List Position) (a : Position) (s : String) (q : ℤ)
    (h1 : ∀ x ∈ l1, (x.symbol == s) = false) (ha : (a.symbol == s) = true) :
    applySell (l1 ++ a :: l2) s q =
      if a.quantity - q = 0 then l1 ++ l2
      else l1 ++ ({ a with quantity := a.quantity - q } :: l2) := by
  induction l1 with
  | nil =>
    simp only [List.nil_append, applySell, ha, if_true]
  | cons x xs ih =>
    have hx : (x.symbol == s) = false := h1 x (by simp)
    have ih' := ih (fun y hy => h1 y (by simp [hy]))
    rw [List.cons_append,
      show applySell (x :: (xs ++ a :: l2)) s q = x :: applySell (xs ++ a :: l2) s q from
        by simp [applySell, hx],
      ih']
    split <;> simp

/-- `applyBuy` leaves the first matching row's symbol in place and updates
its quantity and average cost; `find?` on the result returns the updated
row. -/
theorem find?_applyBuy_of_some (l : List Position) (s : String) (q : ℤ)
    (pr tv : ℚ) (pos : Position) (h : l.find? (fun p => p.symbol == s) = some pos) :
    (applyBuy l s q pr tv).find? (fun p => p.symbol == s) =
      some ⟨pos.symbol, pos.quantity + q,
        (pos.average_cost * (pos.quantity : ℚ) + tv) / ((pos.quantity + q : ℤ) : ℚ)⟩ := by
  induction l with
  | nil => simp at h
  | cons x xs ih =>
    by_cases hx : (x.symbol == s) = true
    · simp only [List.find?_cons, hx, if_true] at h
      obtain rfl : x = pos := by simpa using h
      simp only [applyBuy, hx, if_true]
      simp [List.find?_cons, hx]
    · simp only [List.find?_cons, hx, Bool.false_eq_true, if_false] at h
      simp only [applyBuy, hx, Bool.false_eq_true, if_false]
      rw [List.find?_cons]
      simp only [hx, Bool.false_eq_true, if_false]
      exact ih h

/-- `applyBuy` with no matching row appends a fresh row with
`average_cost = price`; `find?` on the result returns it. -/
theorem find?_applyBuy_of_none (l : List Position) (s : String) (q : ℤ)
    (pr tv : ℚ) (h : l.find? (fun p => p.symbol == s) = none) :
    (applyBuy l s q pr tv).find? (fun p => p.symbol == s) = some ⟨s, q, pr⟩ := by
  induction l with
  | nil => simp [applyBuy]
  | cons x xs ih =>
    rw [List.find?_cons] at h
    split at h
    · exact absurd h (by simp)
    · rename_i hx
      simp only [applyBuy, hx, Bool.false_eq_true, if_false]
      rw [List.find?_cons_of_neg _ (by simpa using hx)]
      exact ih h

/-- Every row of `applyBuy` has positive quantity when the request quantity
is positive and every input row does. -/
theorem applyBuy_quantity_pos (l : List Position) (s : String) (q : ℤ)
    (pr tv : ℚ) (hq : 0 < q) (h : ∀ p ∈ l, 0 < p.quantity) :
    ∀ p' ∈ applyBuy l s q pr tv, 0 < p'.quantity := by
  induction l with
  | nil =>
    intro p' hp'
    simp only [applyBuy, List.mem_singleton] at hp'
    simpa [hp'] using hq
  | cons x xs ih =>
    intro p' hp'
    simp only [applyBuy] at hp'
    split at hp'
    · rcases List.mem_cons.mp hp' with rfl | hmem
      · have := h x (by simp)
        simp only
        omega
      · exact h p' (by simp [hmem])
    · rcases List.mem_cons.mp hp' with rfl | hmem
      · exact h p' (by simp)
      · exact ih (fun p hp => h p (by simp [hp])) p' hmem

end TradingService

/-- C2: `execute_trade` fails with `insufficientFunds` exactly when, for a
buy, the cash balance is below gross plus fee; it fails with
`insufficientShares` exactly when, for a sell, no position exists for the
symbol or the held quantity is below the requested quantity; and every
failing order (oracle failure included) returns a failure result and
leaves the cash balance, the positions and the trade ledger unchanged. -/
theorem C2_failure_characterisation (st : TradingState) (req : TradeRequest)
    (info : StockInfo) :
    ((TradingService.execute_trade st req none).1.success = false ∧
      (TradingService.execute_trade st req none).1.error = some .oracleUnavailable ∧
      (TradingService.execute_trade st req none).2 = st) ∧
    (req.order_type = .buy →
      ((TradingService.execute_trade st req (some info)).1.error =
          some .insufficientFunds ↔
        st.cash_balance < info.current_price * (req.quantity : ℚ) +
          info.current_price * (req.quantity : ℚ) * brokerageRate)) ∧
    (req.order_type = .sell →
      ((TradingService.execute_trade st req (some info)).1.error =
          some .insufficientShares ↔
        TradingService.findPosition st.positions (upper req.symbol) = none ∨
          ∃ position,
            TradingService.findPosition st.positions (upper req.symbol) = some position ∧
              position.quantity < req.quantity)) ∧
    ((TradingService.execute_trade st req (some info)).1.success = false →
      (TradingService.execute_trade st req (some info)).2 = st) := by
  refine ⟨⟨rfl, rfl, rfl⟩, ?_, ?_, ?_⟩
  · intro hord
    rw [TradingService.execute_trade_buy st req info hord]
    by_cases hc : st.cash_balance <
        info.current_price * (req.quantity : ℚ) +
          info.current_price * (req.quantity : ℚ) * brokerageRate
    · rw [TradingService.execute_buy_order_of_lt _ _ _ _ _ _ hc]
      simpa using hc
    · rw [TradingService.execute_buy_order_of_le _ _ _ _ _ _ hc]
      simpa using hc
  · intro hord
    rw [TradingService.execute_trade_sell st req info hord]
    cases hfind : TradingService.findPosition st.positions (upper req.symbol) with
    | none =>
      rw [TradingService.execute_sell_order_of_none _ _ _ _ _ _ hfind]
      simp
    | some position =>
      by_cases hq : position.quantity < req.quantity
      · rw [TradingService.execute_sell_order_of_short _ _ _ _ _ _ _ hfind hq]
        simp [hq]
      · rw [TradingService.execute_sell_order_of_covered _ _ _ _ _ _ _ hfind hq]
        simp [hq]
  · intro hfail
    cases hord : req.order_type with
    | buy =>
      rw [TradingService.execute_trade_buy st req info hord] at hfail ⊢
      by_cases hc : st.cash_balance <
          info.current_price * (req.quantity : ℚ) +
            info.current_price * (req.quantity : ℚ) * brokerageRate
      · rw [TradingService.execute_buy_order_of_lt _ _ _ _ _ _ hc]
      · rw [TradingService.execute_buy_order_of_le _ _ _ _ _ _ hc] at hfail
        simp at hfail
    | sell =>
      rw [TradingService.execute_trade_sell st req info hord] at hfail ⊢
      cases hfind : TradingService.findPosition st.positions (upper req.symbol) with
      | none => rw [TradingService.execute_sell_order_of_none _ _ _ _ _ _ hfind]
      | some position =>
        by_cases hq : position.quantity < req.quantity
        · rw [TradingService.execute_sell_order_of_short _ _ _ _ _ _ _ hfind hq]
        · rw [TradingService.execute_sell_order_of_covered _ _ _ _ _ _ _ hfind hq] at hfail
          simp at hfail

/-- C2 witness: an underfunded buy and an uncovered sell, both rejected
with the right failure kind and with the state untouched. -/
theorem C2_failure_characterisation_witness :
    (TradingService.execute_trade ⟨10, [], []⟩ ⟨"AAPL", 1, .buy⟩
        (some ⟨100, "Apple"⟩)).1.error = some .insufficientFunds ∧
    (TradingService.execute_trade ⟨10, [], []⟩ ⟨"AAPL", 1, .buy⟩
        (some ⟨100, "Apple"⟩)).2 = ⟨10, [], []⟩ ∧
    (TradingService.execute_trade ⟨10, [], []⟩ ⟨"AAPL", 1, .sell⟩
        (some ⟨100, "Apple"⟩)).1.error = some .insufficientShares := by
  have h := C2_failure_characterisation ⟨10, [], []⟩ ⟨"AAPL", 1, .buy⟩ ⟨100, "Apple"⟩
  have h2 := C2_failure_characterisation ⟨10, [], []⟩ ⟨"AAPL", 1, .sell⟩ ⟨100, "Apple"⟩
  have herr : (TradingService.execute_trade ⟨10, [], []⟩ ⟨"AAPL", 1, .buy⟩
      (some ⟨100, "Apple"⟩)).1.error = some .insufficientFunds :=
    (h.2.1 rfl).mpr (by norm_num [brokerageRate])
  refine ⟨herr, h.2.2.2 ?_, (h2.2.2.1 rfl).mpr (Or.inl (by decide))⟩
  norm_num [TradingService.execute_trade, TradingService.execute_buy_order,
    brokerageRate]

/-- C3: a committed trade keeps the cash balance nonnegative and every
`Position` row's quantity strictly positive, and a sell that brings a
position's quantity to exactly 0 deletes the row (no row with that symbol
remains). -/
theorem C3_invariants (st : TradingState) (req : TradeRequest) (info : StockInfo)
    (hq : 0 < req.quantity) (hp : 0 ≤ info.current_price)
    (hcash : 0 ≤ st.cash_balance)
    (hpos : ∀ p ∈ st.positions, 0 < p.quantity) :
    0 ≤ (TradingService.execute_trade st req (some info)).2.cash_balance ∧
    (∀ p ∈ (TradingService.execute_trade st req (some info)).2.positions,
      0 < p.quantity) ∧
    (req.order_type = .sell →
      (st.positions.map (fun p => p.symbol)).Nodup →
      ∀ position,
        TradingService.findPosition st.positions (upper req.symbol) = some position →
        position.quantity = req.quantity →
        ∀ p ∈ (TradingService.execute_trade st req (some info)).2.positions,
          ¬ p.symbol = upper req.symbol) := by
  cases hord : req.order_type with
  | buy =>
    rw [TradingService.execute_trade_buy st req info hord]
    by_cases hc : st.cash_balance <
        info.current_price * (req.quantity : ℚ) +
          info.current_price * (req.quantity : ℚ) * brokerageRate
    · rw [TradingService.execute_buy_order_of_lt _ _ _ _ _ _ hc]
      exact ⟨hcash, hpos, fun hs => absurd hs (by decide)⟩
    · rw [TradingService.execute_buy_order_of_le _ _ _ _ _ _ hc]
      refine ⟨?_, ?_, fun hs => absurd hs (by decide)⟩
      · show 0 ≤ st.cash_balance - (info.current_price * (req.quantity : ℚ) +
          info.current_price * (req.quantity : ℚ) * brokerageRate)
        push_neg at hc
        linarith
      · exact TradingService.applyBuy_quantity_pos _ _ _ _ _ hq hpos
  | sell =>
    rw [TradingService.execute_trade_sell st req info hord]
    cases hfind : TradingService.findPosition st.positions (upper req.symbol) with
    | none =>
      rw [TradingService.execute_sell_order_of_none _ _ _ _ _ _ hfind]
      exact ⟨hcash, hpos, fun _ _ position hfind' _ => Option.noConfusion hfind'⟩
    | some pos =>
      by_cases hshort : pos.quantity < req.quantity
      · rw [TradingService.execute_sell_order_of_short _ _ _ _ _ _ _ hfind hshort]
        refine ⟨hcash, hpos, fun _ _ position hfind' hqty => ?_⟩
        obtain rfl : pos = position := by simpa using hfind'
        omega
      · rw [TradingService.execute_sell_order_of_covered _ _ _ _ _ _ _ hfind hshort]
        have hfind2 : st.positions.find? (fun p => p.symbol == upper req.symbol) =
            some pos := hfind
        obtain ⟨l1, l2, hsplit, hl1, hpa⟩ := find?_eq_some_decomp _ hfind2
        have happly := TradingService.applySell_decomp l1 l2 pos (upper req.symbol)
          req.quantity hl1 hpa
        have htv : 0 ≤ info.current_price * (req.quantity : ℚ) :=
          mul_nonneg hp (by exact_mod_cast hq.le)
        refine ⟨by simp only [brokerageRate] at *; linarith, ?_, ?_⟩
        · intro p hmem
          simp only [hsplit, happly] at hmem
          split at hmem
          · rcases List.mem_append.mp hmem with hmem | hmem
            · exact hpos p (by rw [hsplit]; exact List.mem_append_left _ hmem)
            · exact hpos p (by rw [hsplit]; simp [hmem])
          · rcases List.mem_append.mp hmem with hmem | hmem
            · exact hpos p (by rw [hsplit]; exact List.mem_append_left _ hmem)
            · rcases List.mem_cons.mp hmem with rfl | hmem
              · rename_i hne
                simp only
                omega
              · exact hpos p (by rw [hsplit]; simp [hmem])
        · intro _ hnd position hfind' hqty
          obtain rfl : pos = position := by simpa using hfind'
          have hzero : pos.quantity - req.quantity = 0 := by omega
          intro p hmem
          simp only [hsplit, happly, hzero, if_true] at hmem
          have hsym : pos.symbol = upper req.symbol := by
            simpa using hpa
          rw [hsplit] at hnd
          simp only [List.map_append, List.map_cons] at hnd
          rcases List.mem_append.mp hmem with hmem | hmem
          · have := hl1 p hmem
            simpa using this
          · have hnd2 := (List.nodup_append.mp hnd).2.1
            have hnotin : pos.symbol ∉ l2.map (fun p => p.symbol) :=
              (List.nodup_cons.mp hnd2).1
            intro hcontra
            exact hnotin (hsym ▸ hcontra ▸ List.mem_map_of_mem _ hmem)

/-- C3 witness: a concrete full sell (10 of 10 shares) deletes the
position and keeps cash nonnegative. -/
theorem C3_invariants_witness :
    0 ≤ (TradingService.execute_trade ⟨9849925/100, [⟨"AAPL", 10, 150⟩], []⟩
        ⟨"AAPL", 10, .sell⟩ (some ⟨160, "Apple"⟩)).2.cash_balance ∧
    (∀ p ∈ (TradingService.execute_trade ⟨9849925/100, [⟨"AAPL", 10, 150⟩], []⟩
        ⟨"AAPL", 10, .sell⟩ (some ⟨160, "Apple"⟩)).2.positions,
      ¬ p.symbol = upper "AAPL") := by
  have hup : upper "AAPL" = "AAPL" := by decide
  have h := C3_invariants ⟨9849925/100, [⟨"AAPL", 10, 150⟩], []⟩
    ⟨"AAPL", 10, .sell⟩ ⟨160, "Apple"⟩ (by norm_num) (by norm_num)
    (by norm_num) (by intro p hp; simp at hp; simp [hp])
  refine ⟨h.1, h.2.2 rfl (by simp) ⟨"AAPL", 10, 150⟩ ?_ rfl⟩
  simp [TradingService.findPosition, hup]

/-- C4: a buy of quantity `q` at price `p` into an existing position sets
`average_cost` to `(old_average_cost×old_quantity + p×q) / (old_quantity+q)`
and the quantity to `old_quantity + q`; the first buy of a symbol creates a
position with `average_cost = p`. -/
theorem C4_average_cost (st : TradingState) (req : TradeRequest) (info : StockInfo)
    (hord : req.order_type = .buy)
    (hsucc : (TradingService.execute_trade st req (some info)).1.success = true) :
    (∀ pos, TradingService.findPosition st.positions (upper req.symbol) = some pos →
      TradingService.findPosition
          (TradingService.execute_trade st req (some info)).2.positions
          (upper req.symbol) =
        some ⟨pos.symbol, pos.quantity + req.quantity,
          (pos.average_cost * (pos.quantity : ℚ) +
            info.current_price * (req.quantity : ℚ)) /
            ((pos.quantity + req.quantity : ℤ) : ℚ)⟩) ∧
    (TradingService.findPosition st.positions (upper req.symbol) = none →
      TradingService.findPosition
          (TradingService.execute_trade st req (some info)).2.positions
          (upper req.symbol) =
        some ⟨upper req.symbol, req.quantity, info.current_price⟩) := by
  rw [TradingService.execute_trade_buy st req info hord] at hsucc ⊢
  by_cases hc : st.cash_balance <
      info.current_price * (req.quantity : ℚ) +
        info.current_price * (req.quantity : ℚ) * brokerageRate
  · rw [TradingService.execute_buy_order_of_lt _ _ _ _ _ _ hc] at hsucc
    simp at hsucc
  · rw [TradingService.execute_buy_order_of_le _ _ _ _ _ _ hc]
    exact ⟨fun pos hfind => TradingService.find?_applyBuy_of_some _ _ _ _ _ _ hfind,
      fun hnone => TradingService.find?_applyBuy_of_none _ _ _ _ _ hnone⟩

/-- C4 witness: buying 10 shares at 100 and then 10 shares at 200 yields a
position with `average_cost = 150` and `quantity = 20`. -/
theorem C4_average_cost_witness :
    TradingService.findPosition
        (TradingService.execute_trade ⟨100000, [⟨"AAPL", 10, 100⟩], []⟩
          ⟨"AAPL", 10, .buy⟩ (some ⟨200, "Apple"⟩)).2.positions "AAPL" =
      some ⟨"AAPL", 20, 150⟩ := by
  have hup : upper "AAPL" = "AAPL" := by decide
  have h := (C4_average_cost ⟨100000, [⟨"AAPL", 10, 100⟩], []⟩ ⟨"AAPL", 10, .buy⟩
    ⟨200, "Apple"⟩ rfl (by
      norm_num [TradingService.execute_trade, TradingService.execute_buy_order,
        brokerageRate])).1 ⟨"AAPL", 10, 100⟩ (by
      simp [TradingService.findPosition, hup])
  rw [hup] at h
  rw [h]
  norm_num

/-- C5: a partial sell (requested quantity strictly below the held
quantity) changes only the matched position's quantity and the cash
balance: the position's `average_cost` is unchanged and every other
position row is untouched. -/
theorem C5_partial_sell_frame (st : TradingState) (req : TradeRequest)
    (info : StockInfo) (pos : Position) (hord : req.order_type = .sell)
    (hfind : TradingService.findPosition st.positions (upper req.symbol) = some pos)
    (hbelow : req.quantity < pos.quantity) :
    ∃ l1 l2,
      st.positions = l1 ++ pos :: l2 ∧
      (∀ x ∈ l1, ¬ x.symbol = upper req.symbol) ∧
      (TradingService.execute_trade st req (some info)).2.positions =
        l1 ++ ⟨pos.symbol, pos.quantity - req.quantity, pos.average_cost⟩ :: l2 ∧
      (TradingService.execute_trade st req (some info)).2.cash_balance =
        st.cash_balance + (info.current_price * (req.quantity : ℚ) -
          info.current_price * (req.quantity : ℚ) * brokerageRate) := by
  have hshort : ¬ pos.quantity < req.quantity := by omega
  rw [TradingService.execute_trade_sell st req info hord]
  rw [TradingService.execute_sell_order_of_covered _ _ _ _ _ _ _ hfind hshort]
  have hfind2 : st.positions.find? (fun p => p.symbol == upper req.symbol) =
      some pos := hfind
  obtain ⟨l1, l2, hsplit, hl1, hpa⟩ := find?_eq_some_decomp _ hfind2
  have happly := TradingService.applySell_decomp l1 l2 pos (upper req.symbol)
    req.quantity hl1 hpa
  have hne : ¬ pos.quantity - req.quantity = 0 := by omega
  refine ⟨l1, l2, hsplit, fun x hx => by simpa using hl1 x hx, ?_, rfl⟩
  show TradingService.applySell st.positions (upper req.symbol) req.quantity = _
  rw [hsplit, happly, if_neg hne]

/-- C5 witness: selling 4 of 10 held shares leaves a position with the
same average cost and quantity 6, and credits the net proceeds. -/
theorem C5_partial_sell_frame_witness :
    (TradingService.execute_trade ⟨1000, [⟨"AAPL", 10, 150⟩], []⟩
        ⟨"AAPL", 4, .sell⟩ (some ⟨160, "Apple"⟩)).2.positions =
      [⟨"AAPL", 6, 150⟩] ∧
    (TradingService.execute_trade ⟨1000, [⟨"AAPL", 10, 150⟩], []⟩
        ⟨"AAPL", 4, .sell⟩ (some ⟨160, "Apple"⟩)).2.cash_balance =
      1000 + ((160 : ℚ) * 4 - 160 * 4 * (5 / 10000)) := by
  have hup : upper "AAPL" = "AAPL" := by decide
  obtain ⟨l1, l2, hsplit, -, hpositions, hcash⟩ :=
    C5_partial_sell_frame ⟨1000, [⟨"AAPL", 10, 150⟩], []⟩ ⟨"AAPL", 4, .sell⟩
      ⟨160, "Apple"⟩ ⟨"AAPL", 10, 150⟩ rfl
      (by simp [TradingService.findPosition, hup]) (by norm_num)
  have hl1 : l1 = [] := by
    cases l1 with
    | nil => rfl
    | cons x xs =>
      have := congrArg List.length hsplit
      simp at this
  subst hl1
  have hl2 : l2 = [] := by simpa using hsplit
  subst hl2
  refine ⟨by simpa using hpositions, ?_⟩
  rw [hcash]
  norm_num [brokerageRate]

theorem reconcile_append (start : ℚ) (ts ts' : List Trade) :
    reconcile start (ts ++ ts') = reconcile (reconcile start ts) ts' :=
  List.foldl_append _ _ _ _

/-- One `execute_trade` call preserves reconcilability of the cash balance
against the trade ledger. -/
theorem execute_trade_reconcile (st : TradingState) (req : TradeRequest)
    (quote : Option StockInfo) (start : ℚ)
    (h : st.cash_balance = reconcile start st.trades) :
    (TradingService.execute_trade st req quote).2.cash_balance =
      reconcile start (TradingService.execute_trade st req quote).2.trades := by
  cases quote with
  | none => exact h
  | some info =>
    cases hord : req.order_type with
    | buy =>
      rw [TradingService.execute_trade_buy st req info hord]
      by_cases hc : st.cash_balance <
          info.current_price * (req.quantity : ℚ) +
            info.current_price * (req.quantity : ℚ) * brokerageRate
      · rw [TradingService.execute_buy_order_of_lt _ _ _ _ _ _ hc]
        exact h
      · rw [TradingService.execute_buy_order_of_le _ _ _ _ _ _ hc]
        show st.cash_balance - _ = reconcile start (st.trades ++ [_])
        rw [reconcile_append, ← h]
        simp [reconcile]
    | sell =>
      rw [TradingService.execute_trade_sell st req info hord]
      cases hfind : TradingService.findPosition st.positions (upper req.symbol) with
      | none =>
        rw [TradingService.execute_sell_order_of_none _ _ _ _ _ _ hfind]
        exact h
      | some pos =>
        by_cases hshort : pos.quantity < req.quantity
        · rw [TradingService.execute_sell_order_of_short _ _ _ _ _ _ _ hfind hshort]
          exact h
        · rw [TradingService.execute_sell_order_of_covered _ _ _ _ _ _ _ hfind hshort]
          show st.cash_balance + _ = reconcile start (st.trades ++ [_])
          rw [reconcile_append, ← h]
          simp [reconcile]

theorem run_trades_reconcile (rs : List (TradeRequest × Option StockInfo)) :
    ∀ st start, st.cash_balance = reconcile start st.trades →
      (run_trades st rs).cash_balance = reconcile start (run_trades st rs).trades := by
  induction rs with
  | nil => intro st start h; exact h
  | cons r rest ih =>
    intro st start h
    exact ih _ start (execute_trade_reconcile st r.1 r.2 start h)

/-- C6 (defect in the competition engine): the personal engine reconciles
exactly — it computes in `Decimal` throughout and persists both gross and
fee, and the first conjunct proves the claim's identity for it over any
order sequence. The competition engine does not: it computes the debit in
binary float before converting to `Decimal`. At oracle price 100.1 and
quantity 3, Python evaluates `trade_value = 100.1 * 3` to
300.29999999999995 and `total_cost = trade_value + trade_value * 0.0005`
to 300.45014999999995; committing those `Decimal` values leaves a balance
the persisted record cannot reconstruct, since the record stores only the
gross 300.29999999999995 and the recovered debit
`gross + gross×0.0005 = 300.450149999999949975` differs in the 17th digit. -/
theorem C6_ledger_reconciliation (start : ℚ)
    (rs : List (TradeRequest × Option StockInfo)) :
    ((run_trades ⟨start, [], []⟩ rs).cash_balance =
      reconcile start (run_trades ⟨start, [], []⟩ rs).trades) ∧
    (CompetitionTradingService.competition_buy_commit ⟨10000, []⟩ "AAPL" 3
          (1001 / 10) (30029999999999995 / 100000000000000)
          (30045014999999995 / 100000000000000)).current_balance ≠
      reconcile_competition 10000
        (CompetitionTradingService.competition_buy_commit ⟨10000, []⟩ "AAPL" 3
          (1001 / 10) (30029999999999995 / 100000000000000)
          (30045014999999995 / 100000000000000)).trades := by
  refine ⟨run_trades_reconcile rs ⟨start, [], []⟩ start rfl, ?_⟩
  norm_num [CompetitionTradingService.competition_buy_commit,
    reconcile_competition, brokerageRate]

/-- C8 counterexample: with a held position whose symbol has no oracle
price, the valuation result is byte-identical to that of a portfolio
without the position — nothing in the result flags it partial or stale. -/
theorem C8_no_partial_flag_counterexample :
    PortfolioService.calculate_portfolio_value 100 [⟨"AAPL", 10, 150⟩]
        (fun _ => none) =
      PortfolioService.calculate_portfolio_value 100 [] (fun _ => none) ∧
    (PortfolioService.calculate_portfolio_value 100 [⟨"AAPL", 10, 150⟩]
        (fun _ => none)).positions = [] := by
  constructor <;> rfl

/-- The valued-position list ignores held positions whose symbol has no
price: filtering them away first yields the same list. -/
theorem filterMap_prices_filter_isSome (prices : String → Option ℚ) :
    ∀ positions : List Position,
      ((positions.filter (fun p => decide (0 < p.quantity))).filterMap
          (fun p => (prices p.symbol).map (PortfolioService.position_value_of p))) =
        (((positions.filter (fun p => (prices p.symbol).isSome)).filter
            (fun p => decide (0 < p.quantity))).filterMap
          (fun p => (prices p.symbol).map (PortfolioService.position_value_of p))) := by
  intro positions
  induction positions with
  | nil => rfl
  | cons p rest ih =>
    cases hpr : prices p.symbol with
    | none =>
      by_cases hq : 0 < p.quantity <;>
        simp [List.filter_cons, hq, hpr, List.filterMap_cons, ih]
    | some price =>
      by_cases hq : 0 < p.quantity <;>
        simp [List.filter_cons, hq, hpr, List.filterMap_cons, ih]

/-- C8 (amended): valuation with a missing oracle price does not fail; the
unpriced position is excluded from `stock_value` and omitted from the
returned positions, and no partial/stale flag exists — the result equals
the valuation of the same portfolio with the unpriced positions removed. -/
theorem C8_missing_price_excluded (cash : ℚ) (positions : List Position)
    (prices : String → Option ℚ) :
    PortfolioService.calculate_portfolio_value cash positions prices =
      PortfolioService.calculate_portfolio_value cash
        (positions.filter (fun p => (prices p.symbol).isSome)) prices ∧
    (PortfolioService.calculate_portfolio_value cash positions prices).stock_value =
      ((positions.filter (fun p => decide (0 < p.quantity))).filterMap
        (fun p => (prices p.symbol).map (fun price => price * (p.quantity : ℚ)))).sum ∧
    (PortfolioService.calculate_portfolio_value cash positions prices).total_value =
      cash +
        (PortfolioService.calculate_portfolio_value cash positions prices).stock_value := by
  refine ⟨?_, ?_, rfl⟩
  · simp only [PortfolioService.calculate_portfolio_value]
    rw [filterMap_prices_filter_isSome]
  · have hmv : ∀ p : Position,
        ((prices p.symbol).map (PortfolioService.position_value_of p)).map
            (fun v => v.market_value) =
          (prices p.symbol).map (fun price => price * (p.quantity : ℚ)) := by
      intro p
      cases prices p.symbol <;> rfl
    simp only [PortfolioService.calculate_portfolio_value, List.map_filterMap]
    simp only [hmv]

/-- C9 (defect the spec flags in §5): under the unguarded
read-validate-commit of `execute_trade`, two concurrent buy orders that are
each individually affordable but jointly exceed the cash balance BOTH
succeed when both read the balance before either commits, and the account
is charged for only one of the two debits (the later commit overwrites the
earlier) — not "exactly one success and one InsufficientFunds". -/
theorem C9_unguarded_concurrent_buys :
    ((100000 : ℚ) < 60030 + 60030) ∧
    ¬ ((100000 : ℚ) < 60030) ∧
    (interleaved_same_snapshot ⟨100000, [], []⟩ ⟨"AAPL", 600, .buy⟩
        ⟨"AAPL", 600, .buy⟩ (some ⟨100, "Apple"⟩)).1.success = true ∧
    (interleaved_same_snapshot ⟨100000, [], []⟩ ⟨"AAPL", 600, .buy⟩
        ⟨"AAPL", 600, .buy⟩ (some ⟨100, "Apple"⟩)).2.1.success = true ∧
    (interleaved_same_snapshot ⟨100000, [], []⟩ ⟨"AAPL", 600, .buy⟩
        ⟨"AAPL", 600, .buy⟩ (some ⟨100, "Apple"⟩)).2.2 = 100000 - 60030 := by
  refine ⟨by norm_num, by norm_num, ?_, ?_, ?_⟩ <;>
    norm_num [interleaved_same_snapshot, TradingService.execute_trade,
      TradingService.execute_buy_order, brokerageRate]

namespace TradingService

/-- Every row produced by `applyBuy` is an input row or carries the traded
symbol. -/
theorem applyBuy_mem_or_symbol (l : List Position) (s : String) (q : ℤ)
    (pr tv : ℚ) : ∀ p' ∈ applyBuy l s q pr tv, p' ∈ l ∨ p'.symbol = s := by
  induction l with
  | nil =>
    intro p' hp'
    simp only [applyBuy, List.mem_singleton] at hp'
    simp [hp']
  | cons x xs ih =>
    intro p' hp'
    simp only [applyBuy] at hp'
    split at hp'
    · rename_i hx
      rcases List.mem_cons.mp hp' with rfl | hmem
      · right
        simpa using hx
      · left
        simp [hmem]
    · rcases List.mem_cons.mp hp' with rfl | hmem
      · left
        simp
      · rcases ih p' hmem with hmem2 | hsym
        · left
          simp [hmem2]
        · right
          exact hsym

/-- Every row produced by `applySell` is an input row or carries the traded
symbol. -/
theorem applySell_mem_or_symbol (l : List Position) (s : String) (q : ℤ) :
    ∀ p' ∈ applySell l s q, p' ∈ l ∨ p'.symbol = s := by
  induction l with
  | nil => intro p' hp'; simp [applySell] at hp'
  | cons x xs ih =>
    intro p' hp'
    simp only [applySell] at hp'
    split at hp'
    · rename_i hx
      split at hp'
      · left
        simp [hp']
      · rcases List.mem_cons.mp hp' with rfl | hmem
        · right
          simpa using hx
        · left
          simp [hmem]
    · rcases List.mem_cons.mp hp' with rfl | hmem
      · left
        simp
      · rcases ih p' hmem with hmem2 | hsym
        · left
          simp [hmem2]
        · right
          exact hsym

/-- The ledger rows and position rows after `execute_trade` are the old
ones, or carry the uppercased request symbol. -/
theorem execute_trade_effect (st : TradingState) (req : TradeRequest)
    (quote : Option StockInfo) :
    (∀ t ∈ (execute_trade st req quote).2.trades,
      t ∈ st.trades ∨ t.symbol = upper req.symbol) ∧
    (∀ p ∈ (execute_trade st req quote).2.positions,
      p ∈ st.positions ∨ p.symbol = upper req.symbol) := by
  cases quote with
  | none => exact ⟨fun t ht => Or.inl ht, fun p hp => Or.inl hp⟩
  | some info =>
    cases hord : req.order_type with
    | buy =>
      rw [execute_trade_buy st req info hord]
      by_cases hc : st.cash_balance <
          info.current_price * (req.quantity : ℚ) +
            info.current_price * (req.quantity : ℚ) * brokerageRate
      · rw [execute_buy_order_of_lt _ _ _ _ _ _ hc]
        exact ⟨fun t ht => Or.inl ht, fun p hp => Or.inl hp⟩
      · rw [execute_buy_order_of_le _ _ _ _ _ _ hc]
        constructor
        · intro t ht
          rcases List.mem_append.mp ht with ht | ht
          · exact Or.inl ht
          · right
            simp at ht
            simp [ht]
        · exact applyBuy_mem_or_symbol _ _ _ _ _
    | sell =>
      rw [execute_trade_sell st req info hord]
      cases hfind : findPosition st.positions (upper req.symbol) with
      | none =>
        rw [execute_sell_order_of_none _ _ _ _ _ _ hfind]
        exact ⟨fun t ht => Or.inl ht, fun p hp => Or.inl hp⟩
      | some pos =>
        by_cases hshort : pos.quantity < req.quantity
        · rw [execute_sell_order_of_short _ _ _ _ _ _ _ hfind hshort]
          exact ⟨fun t ht => Or.inl ht, fun p hp => Or.inl hp⟩
        · rw [execute_sell_order_of_covered _ _ _ _ _ _ _ hfind hshort]
          constructor
          · intro t ht
            rcases List.mem_append.mp ht with ht | ht
            · exact Or.inl ht
            · right
              simp at ht
              simp [ht]
          · exact applySell_mem_or_symbol _ _ _

end TradingService

/-- C10: the personal trade executor uppercases the symbol before the
position lookup, the position creation and the ledger append: two orders
whose symbols agree up to letter case produce identical results, and every
touched row carries the uppercased symbol. -/
theorem C10_symbol_uppercased (st : TradingState) (req1 req2 : TradeRequest)
    (quote : Option StockInfo)
    (hsym : upper req1.symbol = upper req2.symbol)
    (hqty : req1.quantity = req2.quantity)
    (hord : req1.order_type = req2.order_type) :
    TradingService.execute_trade st req1 quote =
      TradingService.execute_trade st req2 quote ∧
    (∀ t ∈ (TradingService.execute_trade st req1 quote).2.trades,
      t ∈ st.trades ∨ t.symbol = upper req1.symbol) ∧
    (∀ p ∈ (TradingService.execute_trade st req1 quote).2.positions,
      p ∈ st.positions ∨ p.symbol = upper req1.symbol) := by
  refine ⟨?_, (TradingService.execute_trade_effect st req1 quote).1,
    (TradingService.execute_trade_effect st req1 quote).2⟩
  cases quote with
  | none => rfl
  | some info =>
    simp only [TradingService.execute_trade, hsym, hqty, hord]

/-- C10 witness: the orders `aapl` and `AaPl` (same quantity and side) act
on the same `AAPL` position row and ledger symbol, with identical results. -/
theorem C10_symbol_uppercased_witness :
    TradingService.execute_trade ⟨100000, [], []⟩ ⟨"aapl", 10, .buy⟩
        (some ⟨150, "Apple"⟩) =
      TradingService.execute_trade ⟨100000, [], []⟩ ⟨"AaPl", 10, .buy⟩
        (some ⟨150, "Apple"⟩) ∧
    (∀ t ∈ (TradingService.execute_trade ⟨100000, [], []⟩ ⟨"aapl", 10, .buy⟩
        (some ⟨150, "Apple"⟩)).2.trades, t.symbol = "AAPL") := by
  have h := C10_symbol_uppercased ⟨100000, [], []⟩ ⟨"aapl", 10, .buy⟩
    ⟨"AaPl", 10, .buy⟩ (some ⟨150, "Apple"⟩) (by decide) rfl rfl
  refine ⟨h.1, fun t ht => ?_⟩
  rcases h.2.1 t ht with hmem | hsym
  · simp at hmem
  · rw [hsym]
    decide

theorem foldl_add_eq_add_sum {α : Type} (f : α → ℕ) (l : List α) :
    ∀ acc : ℕ, l.foldl (fun a x => a + f x) acc = acc + (l.map f).sum := by
  induction l with
  | nil => intro acc; simp
  | cons x xs ih =>
    intro acc
    simp only [List.foldl_cons, List.map_cons, List.sum_cons, ih]
    omega

/-- The contribution of one symbol group to `profitable_trades` equals the
count of the direct profitability predicate over that group. -/
theorem profitable_for_symbol_eq_countP (all_trades : List Trade) (s : String) :
    PortfolioService.profitable_for_symbol all_trades s =
      (all_trades.filter (fun t => t.symbol == s)).countP
        (profit_pred all_trades) := by
  have hcnt : (all_trades.filter (fun t => t.symbol == s)).countP
        (profit_pred all_trades) =
      (all_trades.filter (fun t => t.symbol == s)).countP
        (fun t => t.trade_type == "sell" &&
          (!(buy_trades_of all_trades s).isEmpty &&
            decide (PortfolioService.avg_buy_price (buy_trades_of all_trades s) <
              t.price))) := by
    apply List.countP_congr
    intro t ht
    have hsym : t.symbol = s := by simpa using (List.mem_filter.mp ht).2
    simp [profit_pred, hsym]
  rw [hcnt]
  simp only [PortfolioService.profitable_for_symbol, buy_trades_of]
  by_cases hb : ((all_trades.filter (fun t => t.symbol == s)).filter
      (fun t => t.trade_type == "buy")).isEmpty
  · rw [if_pos (by rw [hb]; rfl), eq_comm, List.countP_eq_zero]
    intro t _ hpred
    rw [Bool.and_eq_true, Bool.and_eq_true] at hpred
    exact absurd hpred.2.1 (by rw [hb]; decide)
  · simp only [hb, Bool.false_or, Bool.not_false, Bool.true_and]
    by_cases hs : ((all_trades.filter (fun t => t.symbol == s)).filter
        (fun t => t.trade_type == "sell")).isEmpty
    · rw [if_pos hs, eq_comm, List.countP_eq_zero]
      intro t ht
      rw [List.mem_filter] at ht
      have hnots : ¬ (t.trade_type == "sell") = true := by
        intro hsell
        have hmem : t ∈ (all_trades.filter (fun t => t.symbol == s)).filter
            (fun t => t.trade_type == "sell") :=
          List.mem_filter.mpr ⟨List.mem_filter.mpr ht, hsell⟩
        rw [List.isEmpty_iff.mp hs] at hmem
        exact absurd hmem (List.not_mem_nil t)
      simp [hnots]
    · rw [if_neg hs, List.countP_filter]
      apply List.countP_congr
      intro t ht
      simp [Bool.and_comm]

/-- Counting with one predicate over groups keyed by distinct covering
symbols adds up to the count over the whole list. -/
theorem sum_countP_by_symbol (p : Trade → Bool) :
    ∀ keys : List String, keys.Nodup → ∀ trades : List Trade,
      (∀ t ∈ trades, t.symbol ∈ keys) →
      ((keys.map (fun s => (trades.filter (fun t => t.symbol == s)).countP p)).sum =
        trades.countP p) := by
  intro keys
  induction keys with
  | nil =>
    intro _ trades hcov
    have htr : trades = [] := by
      cases trades with
      | nil => rfl
      | cons t ts => exact absurd (hcov t (by simp)) (by simp)
    simp [htr]
  | cons a rest ih =>
    intro hnd trades hcov
    have hna : a ∉ rest := (List.nodup_cons.mp hnd).1
    have hrest : ∀ s ∈ rest,
        (trades.filter (fun t => t.symbol == s)).countP p =
          ((trades.filter (fun t => !(t.symbol == a))).filter
            (fun t => t.symbol == s)).countP p := by
      intro s hs
      rw [List.filter_filter]
      congr 1
      apply List.filter_congr
      intro t _
      by_cases hts : t.symbol = s
      · have hsa : ¬ s = a := fun hsa => hna (hsa ▸ hs)
        simp [hts, hsa]
      · simp [hts]
    have hcov2 : ∀ t ∈ trades.filter (fun t => !(t.symbol == a)), t.symbol ∈ rest := by
      intro t ht
      obtain ⟨hmem, hne⟩ := List.mem_filter.mp ht
      have := hcov t hmem
      simp only [List.mem_cons] at this
      rcases this with hta | hmemrest
      · exact absurd hta (by simpa using hne)
      · exact hmemrest
    rw [List.map_cons, List.sum_cons,
      List.map_congr_left hrest,
      ih (List.nodup_cons.mp hnd).2 _ hcov2,
      ← List.countP_eq_countP_filter_add trades p (fun t => t.symbol == a)]

/-- The grouped accumulation in `calculate_real_portfolio_metrics` counts
exactly the trades satisfying the direct profitability predicate. -/
theorem profitable_trades_eq_direct (all_trades : List Trade) :
    PortfolioService.profitable_trades all_trades = profitable_direct all_trades := by
  rw [PortfolioService.profitable_trades, foldl_add_eq_add_sum, Nat.zero_add,
    List.map_congr_left (fun s _ => profitable_for_symbol_eq_countP all_trades s),
    profitable_direct]
  apply sum_countP_by_symbol
  · exact List.nodup_dedup _
  · intro t ht
    exact List.mem_dedup.mpr (List.mem_map_of_mem _ ht)

/-- C7 counterexample: on the record [buy A at 100, sell A at 200] the
implementation returns a win rate of 50 (1 profitable sell over 2 total
trades), while the specified win rate — profitable round-trip sells as a
fraction of the sells — is 100. -/
theorem C7_win_rate_counterexample :
    PortfolioService.win_rate
        [⟨"A", "buy", 1, 100, 100, 1/20⟩, ⟨"A", "sell", 1, 200, 200, 1/10⟩] = 50 ∧
    SpecWinRate.win_rate_spec
        [⟨"A", "buy", 1, 100, 100, 1/20⟩, ⟨"A", "sell", 1, 200, 200, 1/10⟩] = 100 ∧
    (50 : ℚ) ≠ 100 := by
  have hbs : ¬ "buy" = "sell" := by decide
  have hsb : ¬ "sell" = "buy" := by decide
  refine ⟨?_, ?_, by norm_num⟩
  · have hsyms : PortfolioService.trade_symbols
        [⟨"A", "buy", 1, 100, 100, 1/20⟩, ⟨"A", "sell", 1, 200, 200, 1/10⟩] =
          ["A"] := by decide
    rw [PortfolioService.win_rate, if_neg (by decide),
      PortfolioService.profitable_trades, hsyms]
    norm_num [PortfolioService.profitable_for_symbol,
      PortfolioService.avg_buy_price, List.filter_cons, List.countP_cons,
      hbs, hsb]
  · rw [SpecWinRate.win_rate_spec]
    norm_num [SpecWinRate.profitable_sells, SpecWinRate.buys_of,
      PortfolioService.avg_buy_price, List.filter_cons, hbs, hsb]

/-- C7 (amended): the metrics operation's win rate equals the number of
sell trades whose symbol has at least one buy anywhere in the record and
whose price exceeds the unweighted mean of all that symbol's buy prices,
expressed as a percentage of the TOTAL number of trades (buys and sells),
not of the sells; the buy average is neither running nor quantity-weighted. -/
theorem C7_win_rate_amended (all_trades : List Trade) (hne : all_trades ≠ []) :
    PortfolioService.win_rate all_trades =
      (profitable_direct all_trades : ℚ) / (all_trades.length : ℚ) * 100 := by
  rw [PortfolioService.win_rate, profitable_trades_eq_direct,
    if_neg (by simpa [List.isEmpty_iff] using hne)]

/-- C7 witness: the amended formula instantiated on the two-trade record,
evaluating to 50. -/
theorem C7_win_rate_amended_witness :
    PortfolioService.win_rate
        [⟨"A", "buy", 1, 100, 100, 1/20⟩, ⟨"A", "sell", 1, 200, 200, 1/10⟩] =
      (profitable_direct
          [⟨"A", "buy", 1, 100, 100, 1/20⟩, ⟨"A", "sell", 1, 200, 200, 1/10⟩] : ℚ) /
        2 * 100 := by
  have h := C7_win_rate_amended
    [⟨"A", "buy", 1, 100, 100, 1/20⟩, ⟨"A", "sell", 1, 200, 200, 1/10⟩]
    (by decide)
  simpa using h

end TradePulse

-- sanity examples
example :
    (TradePulse.TradingService.execute_trade
      ⟨100000, [], []⟩ ⟨"aapl", 10, .buy⟩ (some ⟨150, "Apple"⟩)).2.cash_balance
      = 9849925/100 := by
  norm_num [TradePulse.TradingService.execute_trade,
    TradePulse.TradingService.execute_buy_order, TradePulse.brokerageRate]

example :
    (TradePulse.TradingService.execute_trade
      ⟨100000, [], []⟩ ⟨"aapl", 10, .buy⟩ (some ⟨150, "Apple"⟩)).2.positions
      = [⟨"AAPL", 10, 150⟩] := by
  norm_num [TradePulse.TradingService.execute_trade,
    TradePulse.TradingService.execute_buy_order,
    TradePulse.TradingService.applyBuy, TradePulse.upper,
    TradePulse.brokerageRate]
  decide
